import Mathlib

/-!
Shallow embedding of the tablefinder library (src/lib.rs): the text
normalizer (`reduce` and the two-stage pipeline inside
`SimpleAssessor::with_dict`), the similarity scorer (`with_dict` with the
Jaro metric), the debug-mode dictionary validation, and the assessment
aggregator (`Assessment::for_headers`).

Modelling conventions:
* Rust `&str` / `String` values are modelled as `List Char` (Rust iterates
  by `char`, i.e. by Unicode scalar value, exactly as Lean `Char`).
* `f32` / `f64` scores are modelled as exact rationals `ℚ`.
* Rust stdlib character classification functions that depend on Unicode
  tables (`char::is_alphabetic`, `char::is_lowercase`, `str::to_lowercase`)
  are parameters of the embedding, bundled in `CharImpl`; theorems about
  the library quantify over them.  `asciiImpl` instantiates them with
  definitions that agree with the Rust stdlib on ASCII input and is used
  for concrete witnesses whose strings are ASCII.
* `char::is_digit(c, 10)` is independent of Unicode tables: it accepts
  exactly the ASCII digits `'0'..='9'`, so it is embedded concretely as
  `is_digit10`.
-/

/-- Rust `char::is_digit(c, 10)`: true exactly for the ASCII digits
`'0'` through `'9'` (radix 10 never consults Unicode tables). -/
def is_digit10 (c : Char) : Bool :=
  decide ('0' ≤ c) && decide (c ≤ '9')

/-- The Rust stdlib character operations used by `with_dict` whose results
depend on the Unicode tables.  The embedding is parametric in them. -/
structure CharImpl where
  is_alphabetic : Char → Bool
  is_lowercase : Char → Bool
  lowercase : List Char → List Char

/-- ASCII instantiation of `CharImpl`; agrees with the Rust stdlib
(`char::is_alphabetic`, `char::is_lowercase`, `str::to_lowercase`) on
ASCII characters.  Used for concrete witnesses over ASCII strings. -/
def asciiImpl : CharImpl where
  is_alphabetic := fun c => (decide ('a' ≤ c) && decide (c ≤ 'z'))
    || (decide ('A' ≤ c) && decide (c ≤ 'Z'))
  is_lowercase := fun c => decide ('a' ≤ c) && decide (c ≤ 'z')
  lowercase := fun v => v.map Char.toLower

/-- Loop body of `reduce` (src/lib.rs lines 158-175).  The `lastWas`
argument is the `last_was` mutable flag of the Rust loop. -/
def reduceGo (criteria : Char → Bool) (w : Char) : List Char → Bool → List Char
  | [], _ => []
  | c :: cs, lastWas =>
    if criteria c then
      if lastWas then reduceGo criteria w cs true
      else w :: reduceGo criteria w cs true
    else c :: reduceGo criteria w cs false

/-- The function `reduce` (src/lib.rs lines 158-175): replace every maximal run of
characters satisfying `criteria` with the single character `w`, copying
all other characters through. -/
def reduce (value : List Char) (criteria : Char → Bool) (w : Char) : List Char :=
  reduceGo criteria w value false

/-- Loop body of `assert_reduction` (src/lib.rs lines 177-189), returning
`true` iff the assertion inside the loop never fires. -/
def assertReductionGo (criteria : Char → Bool) : List Char → Bool → Bool
  | [], _ => true
  | c :: cs, lastWas =>
    if criteria c then (!lastWas) && assertReductionGo criteria cs true
    else assertReductionGo criteria cs false

/-- The function `assert_reduction` (src/lib.rs lines 177-189) modelled as a predicate:
`true` iff the debug assertion passes, i.e. `value` has no two adjacent
characters both satisfying `criteria`. -/
def assert_reduction (value : List Char) (criteria : Char → Bool) : Bool :=
  assertReductionGo criteria value false

/-- Direct statement that a list has no two adjacent characters both
satisfying `p` (used to phrase the spec's no-adjacent-run invariant). -/
def noAdjacent (p : Char → Bool) : List Char → Bool
  | a :: b :: rest => (!(p a && p b)) && noAdjacent p (b :: rest)
  | _ => true

/-- The struct `SimpleAssessor` (src/lib.rs lines 62-88): the four configuration
flags. -/
structure SimpleAssessor where
  is_case_sensitive : Bool
  is_digit_sensitive : Bool
  is_number_reduced : Bool
  is_alpha_reduced : Bool
deriving DecidableEq

/-- The `impl Default for SimpleAssessor` block (src/lib.rs lines 90-99). -/
def SimpleAssessor.default : SimpleAssessor where
  is_case_sensitive := false
  is_digit_sensitive := false
  is_number_reduced := true
  is_alpha_reduced := false

/-- First `let value = ...` of `with_dict` (src/lib.rs lines 107-114):
the alphabetic stage of the normalization pipeline. -/
def alphaStage (impl : CharImpl) (a : SimpleAssessor) (value : List Char) : List Char :=
  if a.is_alpha_reduced then reduce value impl.is_alphabetic 'a'
  else if a.is_case_sensitive then value
  else impl.lowercase value

/-- Second `let value = ...` of `with_dict` (src/lib.rs lines 115-129):
the numeric stage of the normalization pipeline, exactly as the code is
written (the digit substitution runs when `is_digit_sensitive` is `true`). -/
def numericStage (a : SimpleAssessor) (value : List Char) : List Char :=
  if a.is_number_reduced then reduce value is_digit10 '0'
  else if a.is_digit_sensitive then
    value.map (fun c => if is_digit10 c then '0' else c)
  else value

/-- The full candidate normalization performed by `with_dict`
(src/lib.rs lines 107-129). -/
def normalizeValue (impl : CharImpl) (a : SimpleAssessor) (value : List Char) : List Char :=
  numericStage a (alphaStage impl a value)

/-- The debug-mode validation run on one dictionary entry inside the
`with_dict` loop (src/lib.rs lines 133-147): `true` iff none of the
assertions fires for this entry. -/
def variantOk (impl : CharImpl) (a : SimpleAssessor) (v : List Char) : Bool :=
  (if a.is_alpha_reduced then assert_reduction v impl.is_alphabetic
   else if a.is_case_sensitive then v.all impl.is_lowercase
   else true)
  &&
  (if a.is_number_reduced then assert_reduction v is_digit10
   else if a.is_digit_sensitive then
     v.all (fun c => c == '0' || !(is_digit10 c))
   else true)

/-- Whether a debug build of `with_dict` runs to completion on `dict`
without aborting on an assertion (src/lib.rs lines 132-153). -/
def dictOk (impl : CharImpl) (a : SimpleAssessor) (dict : List (List Char)) : Bool :=
  dict.all (variantOk impl a)

/-- Modelled from the spec: the Jaro match window
`max(0, floor(max(l1, l2) / 2) - 1)` of section 4.2 (the Jaro metric is
supplied by the external `strsim` crate, which is a dependency not
vendored in this repository).  `Nat` truncated subtraction realizes the
`max(0, _)`. -/
def jaroWindow (l1 l2 : Nat) : Nat :=
  max l1 l2 / 2 - 1

/-- Modelled from the spec: search, in ascending order of `j`, for the
first index of `s2` inside the match window around `i` holding character
`c` and not yet matched. -/
def findJ (s2 : List Char) (w : Nat) (c : Char) (i : Nat) (used : List Nat) : Option Nat :=
  ((List.range s2.length).filter (fun j => decide (i - w ≤ j) && decide (j ≤ i + w))).find?
    (fun j => (s2.getD j default == c) && !(used.contains j))

/-- Modelled from the spec: the greedy Jaro matching pass.  Walks `s1`
with its index `i`, pairing each character with the first available
matching index of `s2` inside the window; `used` collects consumed
indices of `s2`. -/
def jaroPairs (s2 : List Char) (w : Nat) : List Char → Nat → List Nat → List (Char × Nat)
  | [], _, _ => []
  | c :: rest, i, used =>
    match findJ s2 w c i used with
    | some j => (c, j) :: jaroPairs s2 w rest (i + 1) (j :: used)
    | none => jaroPairs s2 w rest (i + 1) used

/-- Number of positions at which two equal-length character sequences
differ (the raw transposition count before halving). -/
def countDiff : List Char → List Char → Nat
  | a :: as, b :: bs => (if a = b then 0 else 1) + countDiff as bs
  | _, _ => 0

/-- Modelled from the spec: the integer data of a Jaro comparison — the
number `m` of matched characters and the number of mismatched positions
between the two matched sequences taken in order of occurrence. -/
def jaroData (s1 s2 : List Char) : Nat × Nat :=
  let pairs := jaroPairs s2 (jaroWindow s1.length s2.length) s1 0 []
  let js := pairs.map Prod.snd
  let sorted := (List.range s2.length).filter (fun j => js.contains j)
  (pairs.length, countDiff (pairs.map Prod.fst) (sorted.map (fun j => s2.getD j default)))

/-- Modelled from the spec: Jaro similarity (section 4.2), with
transpositions `t` equal to half the mismatched matched positions:
`1` if both strings are empty, `0` if no characters match, otherwise
`(m/l1 + m/l2 + (m - t)/m) / 3`, computed exactly in `ℚ`. -/
def jaro (s1 s2 : List Char) : ℚ :=
  if s1.length = 0 ∧ s2.length = 0 then 1
  else
    let d := jaroData s1 s2
    if d.1 = 0 then 0
    else ((d.1 : ℚ) / (s1.length : ℚ) + (d.1 : ℚ) / (s2.length : ℚ)
      + ((d.1 : ℚ) - (d.2 : ℚ) / 2) / (d.1 : ℚ)) / 3

/-- The method `SimpleAssessor::with_dict` (src/lib.rs lines 101-156), production
semantics: normalize the candidate through the two-stage pipeline, then
fold the dictionary keeping the running maximum similarity, starting
from `0.0`. -/
def with_dict (impl : CharImpl) (a : SimpleAssessor) (value : List Char)
    (dict : List (List Char)) : ℚ :=
  let v := normalizeValue impl a value
  dict.foldl (fun mx variant =>
    let similarity := jaro v variant
    if mx < similarity then similarity else mx) 0

/-- The struct `Assessment` (src/lib.rs lines 12-16), scores as exact rationals. -/
structure Assessment where
  similarity : ℚ
  position : Nat
deriving DecidableEq

instance : Inhabited Assessment := ⟨⟨0, 0⟩⟩

/-- The `ColumnKind` trait (src/lib.rs lines 3-10): two scoring
operations. -/
structure ColumnKind where
  assess_header : List Char → ℚ
  assess_value : List Char → ℚ

instance : Inhabited ColumnKind := ⟨⟨fun _ => 0, fun _ => 0⟩⟩

/-- The function `Assessment::for_headers` (src/lib.rs lines 28-45): for each header
(with its position from `enumerate`), the list of assessments of that
header by each column kind. -/
def for_headers (column_set : List ColumnKind) (headers : List (List Char)) :
    List (List Assessment) :=
  headers.enum.map (fun pair =>
    column_set.map (fun kind =>
      { similarity := kind.assess_header pair.2, position := pair.1 }))

/-- Helper for reasoning about the matching pass: a list paired with
consecutive indices starting at `k`. -/
def zipFrom : Nat → List Char → List (Char × Nat)
  | _, [] => []
  | k, c :: rest => (c, k) :: zipFrom (k + 1) rest

/-! ## Properties of `reduce` -/

theorem reduceGo_pred_eq_w (p : Char → Bool) (w : Char) :
    ∀ (l : List Char) (b : Bool) (c : Char),
      c ∈ reduceGo p w l b → p c = true → c = w := by
  intro l
  induction l with
  | nil => intro b c hc; simp [reduceGo] at hc
  | cons a rest ih =>
    intro b c hc hp
    by_cases ha : p a = true
    · cases b with
      | true =>
        simp only [reduceGo, ha, if_true] at hc
        exact ih true c hc hp
      | false =>
        simp only [reduceGo, ha, if_true, Bool.false_eq_true, if_false] at hc
        rcases List.mem_cons.mp hc with rfl | hc'
        · rfl
        · exact ih true c hc' hp
    · simp only [reduceGo, ha, Bool.false_eq_true, if_false] at hc
      rcases List.mem_cons.mp hc with rfl | hc'
      · exact absurd hp ha
      · exact ih false c hc' hp

theorem reduceGo_true_head (p : Char → Bool) (w : Char) :
    ∀ (l : List Char) (c : Char),
      (reduceGo p w l true).head? = some c → p c = false := by
  intro l
  induction l with
  | nil => intro c hc; simp [reduceGo] at hc
  | cons a rest ih =>
    intro c hc
    by_cases ha : p a = true
    · simp only [reduceGo, ha, if_true] at hc
      exact ih c hc
    · simp only [reduceGo, ha, Bool.false_eq_true, if_false, List.head?_cons,
        Option.some.injEq] at hc
      subst hc
      exact Bool.eq_false_iff.mpr (fun h => ha h)

theorem noAdjacent_cons (p : Char → Bool) (a : Char) (l : List Char)
    (h1 : ∀ c, l.head? = some c → (p a && p c) = false)
    (h2 : noAdjacent p l = true) : noAdjacent p (a :: l) = true := by
  cases l with
  | nil => simp [noAdjacent]
  | cons b rest =>
    simp only [noAdjacent, Bool.and_eq_true, Bool.not_eq_true']
    exact ⟨h1 b rfl, h2⟩

theorem noAdjacent_reduceGo (p : Char → Bool) (w : Char) :
    ∀ (l : List Char) (b : Bool), noAdjacent p (reduceGo p w l b) = true := by
  intro l
  induction l with
  | nil => intro b; simp [reduceGo, noAdjacent]
  | cons a rest ih =>
    intro b
    by_cases ha : p a = true
    · cases b with
      | true => simp only [reduceGo, ha, if_true]; exact ih true
      | false =>
        simp only [reduceGo, ha, if_true, Bool.false_eq_true, if_false]
        refine noAdjacent_cons p w _ ?_ (ih true)
        intro c hc
        rw [reduceGo_true_head p w rest c hc, Bool.and_false]
    · simp only [reduceGo, ha, Bool.false_eq_true, if_false]
      refine noAdjacent_cons p a _ ?_ (ih false)
      intro c _
      rw [Bool.eq_false_iff.mpr (fun h => ha h), Bool.false_and]

theorem noAdjacent_tail (p : Char → Bool) (a : Char) (l : List Char)
    (h : noAdjacent p (a :: l) = true) : noAdjacent p l = true := by
  cases l with
  | nil => simp [noAdjacent]
  | cons b rest =>
    simp only [noAdjacent, Bool.and_eq_true] at h
    exact h.2

theorem reduceGo_fixed (p : Char → Bool) (w : Char) :
    ∀ l : List Char, noAdjacent p l = true → (∀ c ∈ l, p c = true → c = w) →
      reduceGo p w l false = l ∧
      ((∀ c, l.head? = some c → p c = false) → reduceGo p w l true = l) := by
  intro l
  induction l with
  | nil => intro _ _; exact ⟨rfl, fun _ => rfl⟩
  | cons a rest ih =>
    intro hadj hmem
    have ihrest := ih (noAdjacent_tail p a rest hadj)
      (fun c hc hp => hmem c (List.mem_cons_of_mem a hc) hp)
    constructor
    · by_cases ha : p a = true
      · have haw : a = w := hmem a (List.mem_cons_self a rest) ha
        have hresthead : ∀ c, rest.head? = some c → p c = false := by
          intro c hc
          cases rest with
          | nil => simp at hc
          | cons b t =>
            simp only [List.head?_cons, Option.some.injEq] at hc
            subst hc
            simp only [noAdjacent, Bool.and_eq_true, Bool.not_eq_true',
              Bool.and_eq_false_iff] at hadj
            rcases hadj.1 with h | h
            · rw [ha] at h; cases h
            · exact h
        simp only [reduceGo, ha, if_true, Bool.false_eq_true, if_false]
        rw [ihrest.2 hresthead, haw]
      · simp only [reduceGo, ha, Bool.false_eq_true, if_false]
        rw [ihrest.1]
    · intro hhead
      have ha : p a = false := hhead a rfl
      simp only [reduceGo, ha, Bool.false_eq_true, if_false]
      rw [ihrest.1]

/-- Claim C4: `reduce` is idempotent — for every string `s`, predicate `p`
and replacement character `r`, `reduce (reduce s p r) p r = reduce s p r`. -/
theorem reduce_idempotent (s : List Char) (p : Char → Bool) (r : Char) :
    reduce (reduce s p r) p r = reduce s p r := by
  unfold reduce
  exact (reduceGo_fixed p r (reduceGo p r s false)
    (noAdjacent_reduceGo p r s false)
    (fun c hc hp => reduceGo_pred_eq_w p r s false c hc hp)).1

theorem noAdjacent_index (p : Char → Bool) :
    ∀ (l : List Char) (i : Nat), noAdjacent p l = true → i + 1 < l.length →
      ¬(p (l.getD i default) = true ∧ p (l.getD (i + 1) default) = true) := by
  intro l
  induction l with
  | nil => intro i _ hi; simp at hi
  | cons a rest ih =>
    intro i hadj hi
    cases rest with
    | nil => simp only [List.length_cons, List.length_nil] at hi; omega
    | cons b t =>
      simp only [noAdjacent, Bool.and_eq_true, Bool.not_eq_true',
        Bool.and_eq_false_iff] at hadj
      cases i with
      | zero =>
        simp only [List.getD_cons_zero, List.getD_cons_succ]
        intro hcontra
        rcases hadj.1 with h | h
        · exact absurd hcontra.1 (by simp [h])
        · exact absurd hcontra.2 (by simp [h])
      | succ n =>
        simp only [List.getD_cons_succ]
        refine ih n hadj.2 ?_
        simp only [List.length_cons] at hi ⊢
        omega

/-- Claim C5: the output of `reduce` never contains two adjacent characters
that both satisfy the predicate `p`. -/
theorem reduce_no_adjacent (p : Char → Bool) (r : Char) (s : List Char) (i : Nat)
    (hi : i + 1 < (reduce s p r).length) :
    ¬(p ((reduce s p r).getD i default) = true ∧
      p ((reduce s p r).getD (i + 1) default) = true) :=
  noAdjacent_index p (reduce s p r) i (noAdjacent_reduceGo p r s false) hi

/-- Witness for claim C5 at a concrete input: `reduce "a11b" digit '0'`
is `"a0b"`, and positions 0 and 1 are not both digits. -/
theorem reduce_no_adjacent_witness :
    ¬(is_digit10 ((reduce "a11b".data is_digit10 '0').getD 0 default) = true ∧
      is_digit10 ((reduce "a11b".data is_digit10 '0').getD 1 default) = true) :=
  reduce_no_adjacent is_digit10 '0' "a11b".data 0 (by decide)

/-- Claim C1 (code bug evidence): with `number_reduced = false`, the numeric
stage of `with_dict` as written leaves `"1"` unchanged when
`digit_sensitive` is `false`, and substitutes the digit when
`digit_sensitive` is `true` — the exact opposite of the claim, of the spec,
and of the documentation on the `SimpleAssessor` fields (src/lib.rs lines
70-73). -/
theorem numericStage_digit_branch_swapped :
    numericStage ⟨false, false, false, false⟩ ['1'] = ['1'] ∧
    numericStage ⟨false, true, false, false⟩ ['1'] = ['0'] := by
  decide

/-! ## Scorer: maximum over the dictionary -/

theorem countDiff_le (a : List Char) : ∀ b : List Char, countDiff a b ≤ a.length := by
  induction a with
  | nil => intro b; cases b <;> simp [countDiff]
  | cons x xs ih =>
    intro b
    cases b with
    | nil => simp [countDiff]
    | cons y ys =>
      simp only [countDiff, List.length_cons]
      have := ih ys
      by_cases h : x = y <;> simp only [h, if_true, if_false] <;> omega

theorem jaroData_snd_le (s1 s2 : List Char) : (jaroData s1 s2).2 ≤ (jaroData s1 s2).1 := by
  simp only [jaroData]
  exact le_trans (countDiff_le _ _) (le_of_eq (List.length_map _ _))

theorem jaro_nonneg (s1 s2 : List Char) : 0 ≤ jaro s1 s2 := by
  simp only [jaro]
  split_ifs with h1 h2
  · exact zero_le_one
  · exact le_refl 0
  · have hd : ((jaroData s1 s2).2 : ℚ) ≤ ((jaroData s1 s2).1 : ℚ) := by
      exact_mod_cast jaroData_snd_le s1 s2
    have hd0 : (0 : ℚ) ≤ ((jaroData s1 s2).2 : ℚ) := by positivity
    refine div_nonneg
      (add_nonneg (add_nonneg (div_nonneg ?_ ?_) (div_nonneg ?_ ?_))
        (div_nonneg ?_ ?_)) (by norm_num)
    · positivity
    · positivity
    · positivity
    · positivity
    · exact sub_nonneg.mpr (le_trans (half_le_self hd0) hd)
    · positivity

theorem step_eq_max (a b : ℚ) : (if a < b then b else a) = max a b := by
  rcases le_or_lt b a with h | h
  · rw [if_neg (not_lt.mpr h), max_eq_left h]
  · rw [if_pos h, max_eq_right h.le]

theorem with_dict_eq_foldl_max (impl : CharImpl) (a : SimpleAssessor)
    (value : List Char) (dict : List (List Char)) :
    with_dict impl a value dict =
      (dict.map (fun e => jaro (normalizeValue impl a value) e)).foldl max 0 := by
  simp only [with_dict]
  rw [List.foldl_map]
  congr 1
  funext mx e
  exact step_eq_max mx (jaro (normalizeValue impl a value) e)

theorem le_foldl_max (l : List ℚ) : ∀ init : ℚ, init ≤ l.foldl max init := by
  induction l with
  | nil => intro init; exact le_refl _
  | cons x xs ih =>
    intro init
    exact le_trans (le_max_left init x) (ih (max init x))

theorem mem_le_foldl_max (l : List ℚ) : ∀ (init x : ℚ), x ∈ l → x ≤ l.foldl max init := by
  induction l with
  | nil => intro init x hx; cases hx
  | cons y ys ih =>
    intro init x hx
    rcases List.mem_cons.mp hx with rfl | hx2
    · exact le_trans (le_max_right init x) (le_foldl_max ys (max init x))
    · exact ih (max init y) x hx2

theorem foldl_max_eq_init_or_mem (l : List ℚ) :
    ∀ init : ℚ, l.foldl max init = init ∨ ∃ x ∈ l, l.foldl max init = x := by
  induction l with
  | nil => intro init; exact Or.inl rfl
  | cons y ys ih =>
    intro init
    rcases ih (max init y) with h | ⟨x, hx, hfx⟩
    · rcases max_choice init y with hm | hm
      · exact Or.inl (by rw [List.foldl_cons, h, hm])
      · exact Or.inr ⟨y, List.mem_cons_self y ys, by rw [List.foldl_cons, h, hm]⟩
    · exact Or.inr ⟨x, List.mem_cons_of_mem y hx, by rw [List.foldl_cons, hfx]⟩

theorem foldl_max_perm (l1 l2 : List ℚ) (h : l1.Perm l2) :
    ∀ init : ℚ, l1.foldl max init = l2.foldl max init := by
  induction h with
  | nil => intro init; rfl
  | cons x _ ih => intro init; simp only [List.foldl_cons]; exact ih _
  | swap x y l =>
    intro init
    simp only [List.foldl_cons]
    rw [max_assoc, max_comm y x, ← max_assoc]
  | trans _ _ ih1 ih2 => intro init; rw [ih1 init, ih2 init]

/-- Claim C2: `with_dict` returns the maximum Jaro similarity between the
normalized candidate and the dictionary entries (attained by some entry
and an upper bound over all entries), and returns exactly `0` on the
empty dictionary.  Normalization is part of `with_dict` itself, performed
before the dictionary is consulted, hence independent of its size. -/
theorem with_dict_max_spec (impl : CharImpl) (a : SimpleAssessor)
    (value : List Char) (dict : List (List Char)) :
    with_dict impl a value [] = 0 ∧
    (dict ≠ [] →
      ∃ e ∈ dict,
        with_dict impl a value dict = jaro (normalizeValue impl a value) e ∧
        ∀ e2 ∈ dict,
          jaro (normalizeValue impl a value) e2 ≤ with_dict impl a value dict) := by
  constructor
  · rfl
  · intro hne
    have hub : ∀ e2 ∈ dict,
        jaro (normalizeValue impl a value) e2 ≤ with_dict impl a value dict := by
      intro e2 he2
      rw [with_dict_eq_foldl_max]
      exact mem_le_foldl_max _ 0 _ (List.mem_map_of_mem _ he2)
    rcases foldl_max_eq_init_or_mem
        (dict.map (fun e => jaro (normalizeValue impl a value) e)) 0 with h0 | hmem
    · cases dict with
      | nil => exact absurd rfl hne
      | cons e es =>
        refine ⟨e, List.mem_cons_self e es, ?_, hub⟩
        have h1 : jaro (normalizeValue impl a value) e ≤ with_dict impl a value (e :: es) :=
          hub e (List.mem_cons_self e es)
        have h2 : 0 ≤ jaro (normalizeValue impl a value) e := jaro_nonneg _ _
        rw [with_dict_eq_foldl_max, h0]
        rw [with_dict_eq_foldl_max, h0] at h1
        exact (le_antisymm h1 h2).symm
    · rcases hmem with ⟨x, hx, hfx⟩
      rcases List.mem_map.mp hx with ⟨e, he, rfl⟩
      exact ⟨e, he, by rw [with_dict_eq_foldl_max, hfx], hub⟩

/-- Witness for claim C2 at a concrete input: the score of `"SSN"` against
the dictionary `["ssn"]` under the default configuration is attained by an
entry and bounds all entries. -/
theorem with_dict_max_spec_witness :
    ∃ e ∈ ["ssn".data],
      with_dict asciiImpl SimpleAssessor.default "SSN".data ["ssn".data] =
        jaro (normalizeValue asciiImpl SimpleAssessor.default "SSN".data) e ∧
      ∀ e2 ∈ ["ssn".data],
        jaro (normalizeValue asciiImpl SimpleAssessor.default "SSN".data) e2 ≤
          with_dict asciiImpl SimpleAssessor.default "SSN".data ["ssn".data] :=
  (with_dict_max_spec asciiImpl SimpleAssessor.default "SSN".data ["ssn".data]).2
    (List.cons_ne_nil _ _)

/-- Claim C6: the result of `with_dict` is unchanged under any permutation
of the dictionary entries. -/
theorem with_dict_perm_invariant (impl : CharImpl) (a : SimpleAssessor)
    (value : List Char) (d1 d2 : List (List Char)) (h : d1.Perm d2) :
    with_dict impl a value d1 = with_dict impl a value d2 := by
  rw [with_dict_eq_foldl_max, with_dict_eq_foldl_max]
  exact foldl_max_perm _ _ (h.map _) 0

/-- Witness for claim C6 at a concrete input: swapping a two-entry
dictionary leaves the score unchanged. -/
theorem with_dict_perm_invariant_witness :
    with_dict asciiImpl SimpleAssessor.default "plan".data
        ["plan".data, "product".data] =
      with_dict asciiImpl SimpleAssessor.default "plan".data
        ["product".data, "plan".data] :=
  with_dict_perm_invariant asciiImpl SimpleAssessor.default "plan".data
    ["plan".data, "product".data] ["product".data, "plan".data]
    (List.Perm.swap "product".data "plan".data [])

/-! ## Jaro similarity of a string with itself -/

theorem find?_pairwise_lt (l : List Nat) (p : Nat → Bool) (k : Nat)
    (hmem : k ∈ l) (hp : p k = true) (hlow : ∀ j, j < k → p j = false)
    (hs : l.Pairwise (· < ·)) : l.find? p = some k := by
  induction l with
  | nil => cases hmem
  | cons a rest ih =>
    rcases List.mem_cons.mp hmem with rfl | hmem2
    · simp [List.find?, hp]
    · have hak : a < k := (List.pairwise_cons.mp hs).1 k hmem2
      have hpa : p a = false := hlow a hak
      simp only [List.find?, hpa]
      exact ih hmem2 (List.pairwise_cons.mp hs).2

theorem getD_append_len (pre : List Char) (c : Char) (rest : List Char) (d : Char) :
    (pre ++ c :: rest).getD pre.length d = c := by
  induction pre with
  | nil => rfl
  | cons a t ih => simpa using ih

theorem zipFrom_length (t : List Char) : ∀ k : Nat, (zipFrom k t).length = t.length := by
  induction t with
  | nil => intro k; rfl
  | cons c rest ih => intro k; simp [zipFrom, ih (k + 1)]

theorem zipFrom_map_fst (t : List Char) : ∀ k : Nat, (zipFrom k t).map Prod.fst = t := by
  induction t with
  | nil => intro k; rfl
  | cons c rest ih => intro k; simp [zipFrom, ih (k + 1)]

theorem zipFrom_map_snd (t : List Char) :
    ∀ k : Nat, (zipFrom k t).map Prod.snd = List.range' k t.length := by
  induction t with
  | nil => intro k; rfl
  | cons c rest ih =>
    intro k
    simp only [zipFrom, List.map_cons, List.length_cons, ih (k + 1)]
    rw [List.range'_succ]

theorem findJ_self (s : List Char) (w : Nat) (pre : List Char) (c : Char)
    (rest : List Char) (used : List Nat) (hs : s = pre ++ c :: rest)
    (hused : ∀ j : Nat, j ∈ used ↔ j < pre.length) :
    findJ s w c pre.length used = some pre.length := by
  have hlen : pre.length < s.length := by
    subst hs; simp only [List.length_append, List.length_cons]; omega
  have hnotmem : pre.length ∉ used := fun hin => by
    have := (hused pre.length).mp hin; omega
  unfold findJ
  apply find?_pairwise_lt
  · refine List.mem_filter.mpr ⟨List.mem_range.mpr hlen, ?_⟩
    simp [Nat.sub_le]
  · have hget : s.getD pre.length default = c := by
      subst hs; exact getD_append_len pre c rest default
    rw [hget]
    simp [hnotmem]
  · intro j hj
    have : j ∈ used := (hused j).mpr hj
    simp [this]
  · exact List.Pairwise.filter _ (List.pairwise_lt_range _)

theorem jaroPairs_self_aux (s : List Char) (w : Nat) :
    ∀ (t pre : List Char) (used : List Nat), s = pre ++ t →
      (∀ j : Nat, j ∈ used ↔ j < pre.length) →
      jaroPairs s w t pre.length used = zipFrom pre.length t := by
  intro t
  induction t with
  | nil => intro pre used _ _; rfl
  | cons c rest ih =>
    intro pre used hs hused
    have hfind := findJ_self s w pre c rest used hs hused
    simp only [jaroPairs, hfind]
    have hs2 : s = (pre ++ [c]) ++ rest := by simpa [List.append_assoc] using hs
    have hused2 : ∀ j : Nat, j ∈ (pre.length :: used) ↔ j < (pre ++ [c]).length := by
      intro j
      simp only [List.mem_cons, hused j, List.length_append, List.length_cons,
        List.length_nil]
      omega
    have := ih (pre ++ [c]) (pre.length :: used) hs2 hused2
    simp only [List.length_append, List.length_cons, List.length_nil] at this
    rw [show pre.length + (0 + 1) = pre.length + 1 from by omega] at this
    simp only [zipFrom]
    rw [this]

theorem countDiff_self (s : List Char) : countDiff s s = 0 := by
  induction s with
  | nil => rfl
  | cons c rest ih => simp [countDiff, ih]

theorem map_getD_range (s : List Char) :
    (List.range s.length).map (fun j => s.getD j default) = s := by
  induction s with
  | nil => rfl
  | cons c rest ih =>
    have h2 : ((List.range rest.length).map Nat.succ).map
          (fun j => (c :: rest).getD j default)
        = (List.range rest.length).map (fun j => rest.getD j default) := by
      rw [List.map_map]
      apply List.map_congr_left
      intro j _
      simp [Function.comp, List.getD_cons_succ]
    simp only [List.length_cons, List.range_succ_eq_map, List.map_cons,
      List.getD_cons_zero]
    rw [h2, ih]

theorem jaroData_self (s : List Char) : jaroData s s = (s.length, 0) := by
  simp only [jaroData]
  have hpairs : jaroPairs s (jaroWindow s.length s.length) s 0 [] = zipFrom 0 s := by
    have := jaroPairs_self_aux s (jaroWindow s.length s.length) s [] []
      (by simp) (by simp)
    simpa using this
  rw [hpairs, zipFrom_map_snd, zipFrom_map_fst, zipFrom_length]
  have hfilter : (List.range s.length).filter
      (fun j => (List.range' 0 s.length).contains j) = List.range s.length := by
    apply List.filter_eq_self.mpr
    intro j hj
    have hjlt : j < s.length := List.mem_range.mp hj
    have : j ∈ List.range' 0 s.length := List.mem_range'_1.mpr ⟨Nat.zero_le j, by omega⟩
    simpa using this
  rw [hfilter, map_getD_range, countDiff_self]

theorem jaro_self (s : List Char) : jaro s s = 1 := by
  by_cases h : s.length = 0
  · have : s = [] := List.length_eq_zero.mp h
    subst this
    simp [jaro]
  · have hq : ((s.length : ℚ)) ≠ 0 := Nat.cast_ne_zero.mpr h
    have hval : jaro s s = ((s.length : ℚ) / (s.length : ℚ) + (s.length : ℚ) / (s.length : ℚ)
        + ((s.length : ℚ) - (0 : ℚ) / 2) / (s.length : ℚ)) / 3 := by
      simp [jaro, jaroData_self, h]
    rw [hval]
    rw [show ((s.length : ℚ) - (0 : ℚ) / 2) = (s.length : ℚ) from by norm_num]
    rw [div_self hq]
    norm_num

/-- Claim C7: if `x` is already in the canonical form implied by the
configuration (the normalization pipeline maps `x` to itself), then
`with_dict x [x]` returns exactly `1`. -/
theorem with_dict_canonical_self (impl : CharImpl) (a : SimpleAssessor) (x : List Char)
    (h : normalizeValue impl a x = x) : with_dict impl a x [x] = 1 := by
  simp only [with_dict, List.foldl_cons, List.foldl_nil, h, jaro_self]
  norm_num

/-- Witness for claim C7 at a concrete input: `"ssn"` is canonical for the
default configuration and scores exactly `1` against itself. -/
theorem with_dict_canonical_self_witness :
    with_dict asciiImpl SimpleAssessor.default "ssn".data ["ssn".data] = 1 :=
  with_dict_canonical_self asciiImpl SimpleAssessor.default "ssn".data (by decide)

/-! ## Concrete score, debug validation, digit predicate, aggregator -/

theorem jaro_eval (s1 s2 : List Char) (m cd : Nat) (hd : jaroData s1 s2 = (m, cd))
    (h1 : s1.length ≠ 0) (hm : m ≠ 0) :
    jaro s1 s2 = ((m : ℚ) / (s1.length : ℚ) + (m : ℚ) / (s2.length : ℚ)
      + ((m : ℚ) - (cd : ℚ) / 2) / (m : ℚ)) / 3 := by
  simp [jaro, hd, hm, h1]

/-- Claim C8: under the default configuration,
`with_dict "MEMBER ID #" ["member id"]` yields a score strictly between
`0.8` and `1` (it equals `31/33`). -/
theorem with_dict_member_id_score :
    (0.8 : ℚ) < with_dict asciiImpl SimpleAssessor.default "MEMBER ID #".data
        ["member id".data] ∧
    with_dict asciiImpl SimpleAssessor.default "MEMBER ID #".data
        ["member id".data] < 1 := by
  have hn : normalizeValue asciiImpl SimpleAssessor.default "MEMBER ID #".data
      = "member id #".data := by decide
  have hd : jaroData "member id #".data "member id".data = (9, 0) := by decide
  have hl1 : ("member id #".data).length = 11 := by decide
  have hl2 : ("member id".data).length = 9 := by decide
  have hj : jaro "member id #".data "member id".data = 31 / 33 := by
    rw [jaro_eval "member id #".data "member id".data 9 0 hd (by decide) (by decide),
      hl1, hl2]
    norm_num
  have hw : with_dict asciiImpl SimpleAssessor.default "MEMBER ID #".data
      ["member id".data] = 31 / 33 := by
    simp only [with_dict, List.foldl_cons, List.foldl_nil, hn, hj]
    rw [if_pos (by norm_num : (0 : ℚ) < 31 / 33)]
  rw [hw]
  constructor <;> norm_num

/-- Claim C9: in debug builds, with `is_case_sensitive = true` and
`is_alpha_reduced = false`, `with_dict` aborts via assertion whenever some
dictionary entry contains any character that the stdlib does not classify
as lowercase — which includes spaces, ASCII digits and punctuation, so
entries with no uppercase letters still abort. -/
theorem case_sensitive_dict_abort (impl : CharImpl) (a : SimpleAssessor)
    (v : List Char) (dict : List (List Char)) (c : Char)
    (hcase : a.is_case_sensitive = true) (halpha : a.is_alpha_reduced = false)
    (hmem : v ∈ dict) (hc : c ∈ v) (hlower : impl.is_lowercase c = false) :
    dictOk impl a dict = false := by
  have hall : v.all impl.is_lowercase = false :=
    List.all_eq_false.mpr ⟨c, hc, by simp [hlower]⟩
  have hvar : variantOk impl a v = false := by
    simp [variantOk, hcase, halpha, hall]
  unfold dictOk
  exact List.all_eq_false.mpr ⟨v, hmem, by simp [hvar]⟩

/-- Witness for claim C9 at concrete inputs: with case sensitivity on and
no alpha reduction, a dictionary holding `"member id"` (a space, no
uppercase) and `"000-00-0000"` (digits and dashes) fails the debug
validation, so a debug build aborts. -/
theorem case_sensitive_dict_abort_witness :
    dictOk asciiImpl ⟨true, false, true, false⟩
      ["member id".data, "000-00-0000".data] = false :=
  case_sensitive_dict_abort asciiImpl ⟨true, false, true, false⟩ "member id".data
    ["member id".data, "000-00-0000".data] ' ' rfl rfl (by decide) (by decide)
    (by decide)

theorem reduceGo_no_match (p : Char → Bool) (w : Char) :
    ∀ (l : List Char) (b : Bool), (∀ c ∈ l, p c = false) → reduceGo p w l b = l := by
  intro l
  induction l with
  | nil => intro b _; rfl
  | cons a rest ih =>
    intro b hl
    have ha : p a = false := hl a (List.mem_cons_self a rest)
    simp only [reduceGo, ha, Bool.false_eq_true, if_false]
    rw [ih false (fun c hcr => hl c (List.mem_cons_of_mem a hcr))]

/-- Claim C10: the digit predicate embedded from `char::is_digit(c, 10)`
accepts only the ASCII digits, so the numeric stage is the identity on any
string none of whose characters is an ASCII digit (in particular on
strings whose decimal digits are all non-ASCII), under every
configuration; by contrast the alphabetic stage folds every character its
`is_alphabetic` predicate accepts — the full Unicode alphabetic class in
the Rust stdlib — when `alpha_reduced` is set. -/
theorem digit_predicate_ascii_only :
    (∀ (a : SimpleAssessor) (s : List Char),
      (∀ c ∈ s, is_digit10 c = false) → numericStage a s = s) ∧
    (∀ (impl : CharImpl) (a : SimpleAssessor) (c : Char),
      a.is_alpha_reduced = true → impl.is_alphabetic c = true →
      alphaStage impl a [c] = ['a']) := by
  constructor
  · intro a s hs
    unfold numericStage
    split_ifs with h1 h2
    · exact reduceGo_no_match is_digit10 '0' s false hs
    · have h3 : s.map (fun c => if is_digit10 c then '0' else c) = s.map id :=
        List.map_congr_left (fun c hcs => by simp [hs c hcs])
      rw [h3, List.map_id]
    · rfl
  · intro impl a c halpha hc
    simp [alphaStage, halpha, reduce, reduceGo, hc]

/-- Witness for claim C10 at concrete inputs: the numeric stage leaves the
Arabic-Indic digit five (U+0665, a Unicode decimal digit outside ASCII)
unchanged under the default configuration, while the alphabetic stage
folds a character accepted by its alphabetic predicate (here the non-ASCII
letter U+00E9) to `'a'`. -/
theorem digit_predicate_ascii_only_witness :
    numericStage SimpleAssessor.default ['٥'] = ['٥'] ∧
    alphaStage ⟨fun c => c == 'é', fun _ => false, fun v => v⟩
      ⟨false, false, true, true⟩ ['é'] = ['a'] :=
  ⟨digit_predicate_ascii_only.1 SimpleAssessor.default ['٥'] (by decide),
   digit_predicate_ascii_only.2 ⟨fun c => c == 'é', fun _ => false, fun v => v⟩
     ⟨false, false, true, true⟩ 'é' rfl (by decide)⟩

/-- Claim C3: `for_headers` produces an outer list of length equal to the
number of headers, every inner list has length equal to the number of
column kinds, and the cell at outer slot `i`, inner slot `k` is the
assessment with `position = i` and `similarity` given by kind `k` applied
to header `i` — both input orders preserved. -/
theorem for_headers_matrix (cs : List ColumnKind) (hs : List (List Char)) :
    (for_headers cs hs).length = hs.length ∧
    (∀ i, i < hs.length → ((for_headers cs hs).getD i []).length = cs.length) ∧
    (∀ i k, i < hs.length → k < cs.length →
      ((for_headers cs hs).getD i []).getD k default =
        { similarity := (cs.getD k default).assess_header (hs.getD i []),
          position := i }) := by
  have hlen : (for_headers cs hs).length = hs.length := by
    simp [for_headers]
  have houter : ∀ i, i < hs.length → (for_headers cs hs).getD i [] =
      cs.map (fun kind =>
        { similarity := kind.assess_header (hs.getD i []), position := i }) := by
    intro i hi
    have hi2 : i < (for_headers cs hs).length := by rw [hlen]; exact hi
    rw [List.getD_eq_getElem _ _ hi2, List.getD_eq_getElem hs [] hi]
    simp [for_headers, List.getElem_enum]
  refine ⟨hlen, ?_, ?_⟩
  · intro i hi
    rw [houter i hi]
    simp
  · intro i k hi hk
    rw [houter i hi]
    have hk2 : k < (cs.map (fun kind =>
        ({ similarity := kind.assess_header (hs.getD i []), position := i } :
          Assessment))).length := by simpa using hk
    rw [List.getD_eq_getElem _ _ hk2, List.getD_eq_getElem cs default hk]
    simp

/-- Witness for claim C3 at a concrete input: a one-kind, one-header call
fills its single cell with that kind's score and position `0`. -/
theorem for_headers_matrix_witness :
    ((for_headers [⟨fun _ => (1 : ℚ), fun _ => (0 : ℚ)⟩] ["h".data]).getD 0 []).getD
        0 default =
      { similarity := (([⟨fun _ => (1 : ℚ), fun _ => (0 : ℚ)⟩] :
          List ColumnKind).getD 0 default).assess_header (["h".data].getD 0 []),
        position := 0 } :=
  (for_headers_matrix [⟨fun _ => (1 : ℚ), fun _ => (0 : ℚ)⟩] ["h".data]).2.2 0 0
    (by decide) (by decide)
